import Mathlib

/-!
# Verification of the `quadtree` repository

A shallow embedding of the point/rectangle/quadtree code in `src/lib.rs`
(geometry primitives and the generic `Quadtree<T>`) and of the range query
`Quadtree::_query` in `src/main.rs`, with theorems checking the
natural-language specification against it.

The generic numeric parameter `T` (an ordered field-like type: the demo
instantiates `f32`) is embedded as `ℚ`, which supports the required
operations (comparison, addition, subtraction, division by two) exactly.
-/

namespace QT

/-- Rust `Vector2<T>`: a 2D coordinate pair (src/lib.rs). -/
structure Vector2 where
  x : ℚ
  y : ℚ
  deriving DecidableEq

/-- Rust `Rect<T>`: `{left, top, width, height}` (src/lib.rs). -/
structure Rect where
  left : ℚ
  top : ℚ
  width : ℚ
  height : ℚ
  deriving DecidableEq

/-- The private helper `fn min` of src/lib.rs: `if i < n { i } else { n }`. -/
def rmin (i n : ℚ) : ℚ := if i < n then i else n

/-- The private helper `fn max` of src/lib.rs: `if i > n { i } else { n }`. -/
def rmax (i n : ℚ) : ℚ := if i > n then i else n

/-- Rust `Rect::contains` (src/lib.rs): normalizes both axes with `min`/`max`,
then tests `x >= min_x && x < max_x && y >= min_y && y < max_y`. -/
def Rect.containsB (r : Rect) (p : Vector2) : Bool :=
  decide (rmin r.left (r.left + r.width) ≤ p.x) &&
  decide (p.x < rmax r.left (r.left + r.width)) &&
  decide (rmin r.top (r.top + r.height) ≤ p.y) &&
  decide (p.y < rmax r.top (r.top + r.height))

/-- Rust `Rect::overlap` (src/lib.rs): normalizes both rectangles, intersects the
axis intervals, and returns `Some(Rect::new(left, top, right - left,
top - bottom))` when `left < right && top < bottom`, else `None`.
(The height really is `top - bottom` in the source.) -/
def Rect.overlap (s r : Rect) : Option Rect :=
  let s_min_x := rmin s.left (s.left + s.width)
  let s_max_x := rmax s.left (s.left + s.width)
  let s_min_y := rmin s.top (s.top + s.height)
  let s_max_y := rmax s.top (s.top + s.height)
  let r_min_x := rmin r.left (r.left + r.width)
  let r_max_x := rmax r.left (r.left + r.width)
  let r_min_y := rmin r.top (r.top + r.height)
  let r_max_y := rmax r.top (r.top + r.height)
  let left := rmax s_min_x r_min_x
  let top := rmax s_min_y r_min_y
  let right := rmin s_max_x r_max_x
  let bottom := rmin s_max_y r_max_y
  if left < right ∧ top < bottom then
    some ⟨left, top, right - left, top - bottom⟩
  else
    none

/-- Modelled from the spec: the external SFML `Rect::intersection` used by
`Quadtree::_query` in src/main.rs (its source is not in this repository).
Per spec §4.1: normalize both rectangles, take `left = max` of the minima and
`right = min` of the maxima on each axis, and return the overlapping
rectangle `{left, top, width = right - left, height = bottom - top}` when
`left < right` and `top < bottom`, otherwise absence-of-overlap. -/
def Rect.intersection (s r : Rect) : Option Rect :=
  let s_min_x := rmin s.left (s.left + s.width)
  let s_max_x := rmax s.left (s.left + s.width)
  let s_min_y := rmin s.top (s.top + s.height)
  let s_max_y := rmax s.top (s.top + s.height)
  let r_min_x := rmin r.left (r.left + r.width)
  let r_max_x := rmax r.left (r.left + r.width)
  let r_min_y := rmin r.top (r.top + r.height)
  let r_max_y := rmax r.top (r.top + r.height)
  let left := rmax s_min_x r_min_x
  let top := rmax s_min_y r_min_y
  let right := rmin s_max_x r_max_x
  let bottom := rmin s_max_y r_max_y
  if left < right ∧ top < bottom then
    some ⟨left, top, right - left, bottom - top⟩
  else
    none

/-- The axis-normalized form of a rectangle (spec §3 "Normalization"):
per axis, the min of the two corner coordinates becomes the origin and the
extent becomes max - min (nonnegative). -/
def Rect.normalize (r : Rect) : Rect :=
  let min_x := rmin r.left (r.left + r.width)
  let max_x := rmax r.left (r.left + r.width)
  let min_y := rmin r.top (r.top + r.height)
  let max_y := rmax r.top (r.top + r.height)
  ⟨min_x, min_y, max_x - min_x, max_y - min_y⟩

/-- Rust `Quadtree<T>` (src/lib.rs): bounds, capacity, the `max_capacity`
captured at construction, the points stored directly at this node
(`children`), and the optional vector of sub-quadtrees (`quads`). -/
inductive Quadtree where
  | mk (bounds : Rect) (capacity : ℕ) (max_capacity : ℕ)
      (children : List Vector2) (quads : Option (List Quadtree))

/-- Field accessor for `bounds`. -/
def Quadtree.bounds : Quadtree → Rect
  | .mk b _ _ _ _ => b

/-- Field accessor for `capacity`. -/
def Quadtree.capacity : Quadtree → ℕ
  | .mk _ cap _ _ _ => cap

/-- Field accessor for `max_capacity`. -/
def Quadtree.max_capacity : Quadtree → ℕ
  | .mk _ _ mcap _ _ => mcap

/-- Field accessor for `children`. -/
def Quadtree.children : Quadtree → List Vector2
  | .mk _ _ _ ch _ => ch

/-- Field accessor for `quads`. -/
def Quadtree.quads : Quadtree → Option (List Quadtree)
  | .mk _ _ _ _ qs => qs

/-- Rust `Quadtree::new(bounds, capacity)` (src/lib.rs): a leaf with empty
`children`, `max_capacity = capacity` and no `quads`. -/
def Quadtree.new (bounds : Rect) (capacity : ℕ) : Quadtree :=
  .mk bounds capacity capacity [] none

/-- Rust `Quadtree::set_quads` (src/lib.rs): replaces `quads` with
`Some(vec![Quadtree::new(self.bounds, self.capacity); 4])`. -/
def Quadtree.set_quads : Quadtree → Quadtree
  | .mk b cap mcap ch _ => .mk b cap mcap ch (some (List.replicate 4 (Quadtree.new b cap)))

/-- Rust `Quadtree::clear` (src/lib.rs): empties `children` and drops `quads`. -/
def Quadtree.clear : Quadtree → Quadtree
  | .mk b cap mcap _ _ => .mk b cap mcap [] none

/-- The four sub-quadtrees that `Quadtree::divide` (src/lib.rs) builds:
`Quadtree::new(self.bounds, self.max_capacity)` four times, with bounds then
overwritten to the NW, NE, SE, SW quarters of half width `w` and half
height `h`. -/
def divideQuads (b : Rect) (mcap : ℕ) : List Quadtree :=
  let x := b.left
  let y := b.top
  let w := b.width / 2
  let h := b.height / 2
  [ .mk ⟨x, y, w, h⟩ mcap mcap [] none,
    .mk ⟨x + w, y, w, h⟩ mcap mcap [] none,
    .mk ⟨x + w, y + h, w, h⟩ mcap mcap [] none,
    .mk ⟨x, y + h, w, h⟩ mcap mcap [] none ]

/-- Rust `Quadtree::divide` (src/lib.rs): a no-op when `quads` is already
present; otherwise installs the four quarter sub-quadtrees. -/
def Quadtree.divide : Quadtree → Quadtree
  | .mk b cap mcap ch (some qs) => .mk b cap mcap ch (some qs)
  | .mk b cap mcap ch none => .mk b cap mcap ch (some (divideQuads b mcap))

/-- The `for quad in self.quads { if quad.insert(location) { return true } }`
loop of `Quadtree::insert`, abstracted over the recursive call `f`: tries
each sub-quadtree in order, keeps each (possibly mutated) sub-quadtree, and
stops at the first that accepts the point. `none` propagates
non-termination (out of fuel) of the recursive call. -/
def insertLoop (f : Quadtree → Option (Quadtree × Bool)) :
    List Quadtree → Option (List Quadtree × Bool)
  | [] => some ([], false)
  | q :: rest =>
    match f q with
    | none => none
    | some (q', true) => some (q' :: rest, true)
    | some (q', false) =>
      match insertLoop f rest with
      | none => none
      | some (rest', ok) => some (q' :: rest', ok)

/-- Rust `Quadtree::insert` (src/lib.rs), with a fuel bound on recursion depth
(the Rust recursion is unbounded: a node of capacity 0 whose bounds contain
the point recurses forever over `ℚ`). `none` means the call did not finish
within `fuel` nested calls; `some (t', ok)` means it returned `ok` leaving
the tree as `t'`. The body is exactly the source: reject when
`bounds.contains` fails; push onto `children` when below capacity and still
a leaf; otherwise divide if still a leaf and delegate to the
sub-quadtrees in order. -/
def insertF : ℕ → Quadtree → Vector2 → Option (Quadtree × Bool)
  | 0, _, _ => none
  | n + 1, .mk b cap mcap ch qs, p =>
    if Rect.containsB b p = false then
      some (.mk b cap mcap ch qs, false)
    else if decide (ch.length < cap) && qs.isNone then
      some (.mk b cap mcap (ch ++ [p]) qs, true)
    else
      match insertLoop (fun q => insertF n q p)
          (match qs with | none => divideQuads b mcap | some l0 => l0) with
      | none => none
      | some (l', ok) => some (.mk b cap mcap ch (some l'), ok)

mutual

/-- Rust `Quadtree::_query` (src/main.rs), with the pruning test
`self.bounds.intersection(&range).is_none()` abstracted as the parameter
`prune` (a technical device: the recursion then compiles to usable
equations; `query` below instantiates it with the real test). The body is
the source: return empty on pruning; otherwise collect this node's
`children` that the range contains, and when `quads` is present append each
sub-quadtree's results in order. -/
def queryAux (prune : Rect → Rect → Bool) : Quadtree → Rect → List Vector2
  | .mk b _ _ ch qs, range =>
    match prune b range with
    | true => []
    | false =>
      let own := ch.filter (fun c => range.containsB c)
      match qs with
      | none => own
      | some l => own ++ queryListAux prune l range

/-- The `for quad in self.quads { children_in_range.append(quad._query(range)) }`
loop of `Quadtree::_query`. -/
def queryListAux (prune : Rect → Rect → Bool) : List Quadtree → Rect → List Vector2
  | [], _ => []
  | q :: rest, range => queryAux prune q range ++ queryListAux prune rest range

end

/-- Rust `Quadtree::_query` (src/main.rs) proper: `queryAux` with the
pruning test `self.bounds.intersection(&range).is_none()`. -/
def query (t : Quadtree) (range : Rect) : List Vector2 :=
  queryAux (fun s r => (Rect.intersection s r).isNone) t range

/-- The sub-quadtree loop of `Quadtree::_query`, with the same pruning
test as `query`. -/
def queryList (l : List Quadtree) (range : Rect) : List Vector2 :=
  queryListAux (fun s r => (Rect.intersection s r).isNone) l range

/-- The structural invariant of spec §3 (invariants 1 and 2), at every node
of the tree: a leaf (absent `quads`) stores at most `capacity` points
directly, and an internal node (present `quads`) has exactly 4
sub-quadtrees. -/
inductive Inv : Quadtree → Prop where
  | mk : ∀ b cap mcap ch qs,
      (qs = none → ch.length ≤ cap) →
      (∀ l, qs = some l → l.length = 4) →
      (∀ l, qs = some l → ∀ q, q ∈ l → Inv q) →
      Inv (.mk b cap mcap ch qs)

/-- States reachable from `Quadtree::new(bounds, capacity)` by any sequence
of (terminating) `insert` calls and `clear` calls. -/
inductive Reachable : Quadtree → Prop where
  | init : ∀ b cap, Reachable (Quadtree.new b cap)
  | step_insert : ∀ t n p t' ok, Reachable t → insertF n t p = some (t', ok) → Reachable t'
  | step_clear : ∀ t, Reachable t → Reachable (Quadtree.clear t)

/-- The source `min` helper agrees with the order-theoretic `min`. -/
lemma rmin_eq_min (a b : ℚ) : rmin a b = min a b := by
  rw [rmin, min_def]
  rcases lt_trichotomy a b with h | h | h
  · rw [if_pos h, if_pos h.le]
  · subst h; simp
  · rw [if_neg (by linarith), if_neg (by linarith)]

/-- The source `max` helper agrees with the order-theoretic `max`. -/
lemma rmax_eq_max (a b : ℚ) : rmax a b = max a b := by
  rw [rmax, max_def]
  rcases lt_trichotomy a b with h | h | h
  · rw [if_neg (by linarith), if_pos h.le]
  · subst h; simp
  · rw [if_pos h, if_neg (by linarith)]

/-- Re-normalizing the lower corner of an already normalized axis is a no-op. -/
lemma min_renorm (a b : ℚ) : min (min a b) (min a b + (max a b - min a b)) = min a b := by
  have h : min a b + (max a b - min a b) = max a b := by ring
  rw [h]
  exact min_eq_left min_le_max

/-- Re-normalizing the upper corner of an already normalized axis is a no-op. -/
lemma max_renorm (a b : ℚ) : max (min a b) (min a b + (max a b - min a b)) = max a b := by
  have h : min a b + (max a b - min a b) = max a b := by ring
  rw [h]
  exact max_eq_right min_le_max

/-- C1: the claim says `Rect::overlap` returns the rectangle
`{left, top, width = right - left, height = bottom - top}` on a
non-degenerate overlap, so that `(0,0,10,10) ∩ (5,5,10,10) = (5,5,5,5)`.
The code computes the height as `top - bottom` instead, returning
`(5,5,5,-5)` there; the zero-area cases (edge-touching and disjoint)
do return no overlap as claimed. -/
theorem C1_overlap_height_bug :
    Rect.overlap ⟨0, 0, 10, 10⟩ ⟨5, 5, 10, 10⟩ = some ⟨5, 5, 5, -5⟩ ∧
    Rect.overlap ⟨0, 0, 10, 10⟩ ⟨5, 5, 10, 10⟩ ≠ some ⟨5, 5, 5, 5⟩ ∧
    Rect.overlap ⟨0, 0, 10, 10⟩ ⟨10, 0, 10, 10⟩ = none ∧
    Rect.overlap ⟨0, 0, 10, 10⟩ ⟨20, 20, 5, 5⟩ = none := by
  refine ⟨?_, ?_, ?_, ?_⟩ <;>
    norm_num [Rect.overlap, rmin, rmax, Rect.mk.injEq]

/-- C4: `Rect::contains` normalizes each axis by min/max and returns true
iff `min_x ≤ x < max_x` and `min_y ≤ y < max_y` (left/top edges inclusive,
right/bottom edges exclusive); in particular `(0,0,10,10)` contains `(0,0)`
and `(9.999, 9.999)` but none of `(10,10)`, `(10,0)`, `(0,10)`. -/
theorem C4_contains_halfopen :
    (∀ r p, Rect.containsB r p = true ↔
      (min r.left (r.left + r.width) ≤ p.x ∧ p.x < max r.left (r.left + r.width) ∧
       min r.top (r.top + r.height) ≤ p.y ∧ p.y < max r.top (r.top + r.height))) ∧
    Rect.containsB ⟨0, 0, 10, 10⟩ ⟨0, 0⟩ = true ∧
    Rect.containsB ⟨0, 0, 10, 10⟩ ⟨9999/1000, 9999/1000⟩ = true ∧
    Rect.containsB ⟨0, 0, 10, 10⟩ ⟨10, 10⟩ = false ∧
    Rect.containsB ⟨0, 0, 10, 10⟩ ⟨10, 0⟩ = false ∧
    Rect.containsB ⟨0, 0, 10, 10⟩ ⟨0, 10⟩ = false := by
  refine ⟨?_, ?_, ?_, ?_, ?_, ?_⟩
  · intro r p
    simp [Rect.containsB, rmin_eq_min, rmax_eq_max, and_assoc]
  all_goals norm_num [Rect.containsB, rmin, rmax]

/-- C8: `clear` leaves the node a fresh leaf (empty `children`, absent
`quads`), preserves `bounds`, `capacity` and `max_capacity`, and a
subsequent query over the node's bounds returns the empty sequence. -/
theorem C8_clear_resets :
    ∀ t : Quadtree,
      (Quadtree.clear t).bounds = t.bounds ∧
      (Quadtree.clear t).capacity = t.capacity ∧
      (Quadtree.clear t).max_capacity = t.max_capacity ∧
      (Quadtree.clear t).children = [] ∧
      (Quadtree.clear t).quads = none ∧
      query (Quadtree.clear t) t.bounds = [] := by
  intro t
  cases t with
  | mk b cap mcap ch qs =>
    refine ⟨rfl, rfl, rfl, rfl, rfl, ?_⟩
    rw [Quadtree.clear, query, queryAux]
    split <;> simp

/-- C9: a rectangle with negative extents is geometrically equivalent to its
axis-normalized form: `(10,10,-10,-10)` and `(0,0,10,10)` give identical
`contains` answers on every point, and in general `contains` on a rectangle
equals `contains` on its normalization. -/
theorem C9_normalize_equiv :
    (∀ p, Rect.containsB ⟨10, 10, -10, -10⟩ p = Rect.containsB ⟨0, 0, 10, 10⟩ p) ∧
    (∀ r p, Rect.containsB r p = Rect.containsB r.normalize p) := by
  constructor
  · intro p
    norm_num [Rect.containsB, rmin, rmax]
  · intro r p
    simp only [Rect.containsB, Rect.normalize, rmin_eq_min, rmax_eq_max,
      min_renorm, max_renorm]

/-- C10: `set_quads` installs exactly four leaf sub-quadtrees, each covering
the parent's entire (untiled) bounds and each with capacity equal to the
node's current `capacity` field — unlike `divide`, it does not partition
the parent's region. -/
theorem C10_set_quads_full_bounds :
    ∀ b cap mcap ch qs, Quadtree.set_quads (.mk b cap mcap ch qs) =
      .mk b cap mcap ch (some
        [.mk b cap cap [] none, .mk b cap cap [] none,
         .mk b cap cap [] none, .mk b cap cap [] none]) := by
  intro b cap mcap ch qs
  rfl

/-- Evaluation of `contains` on a rectangle with nonnegative extents. -/
lemma containsB_eval (l t w h : ℚ) (p : Vector2) (hw : 0 ≤ w) (hh : 0 ≤ h) :
    Rect.containsB ⟨l, t, w, h⟩ p = true ↔
      (l ≤ p.x ∧ p.x < l + w ∧ t ≤ p.y ∧ p.y < t + h) := by
  have hx : l ≤ l + w := by linarith
  have hy : t ≤ t + h := by linarith
  simp [Rect.containsB, rmin_eq_min, rmax_eq_max, min_eq_left hx, max_eq_right hx,
    min_eq_left hy, max_eq_right hy, and_assoc]

/-- C2: on a fresh tree with bounds (0,0,100,100) and capacity 1, inserting
(10,10) succeeds and stores the point in the root's own `children`; a
second insert of (60,60) triggers subdivision, lands in the SE child's
`children`, and the root's own `children` still contains (10,10) — the
already-stored point is not redistributed. Fuel 2 bounds the recursion
depth (root plus one child level). -/
theorem C2_capacity_subdivision :
    insertF 2 (Quadtree.new ⟨0, 0, 100, 100⟩ 1) ⟨10, 10⟩ =
      some (.mk ⟨0, 0, 100, 100⟩ 1 1 [⟨10, 10⟩] none, true) ∧
    insertF 2 (.mk ⟨0, 0, 100, 100⟩ 1 1 [⟨10, 10⟩] none) ⟨60, 60⟩ =
      some (.mk ⟨0, 0, 100, 100⟩ 1 1 [⟨10, 10⟩]
        (some [.mk ⟨0, 0, 50, 50⟩ 1 1 [] none,
               .mk ⟨50, 0, 50, 50⟩ 1 1 [] none,
               .mk ⟨50, 50, 50, 50⟩ 1 1 [⟨60, 60⟩] none,
               .mk ⟨0, 50, 50, 50⟩ 1 1 [] none]), true) := by
  constructor
  · norm_num [insertF, Quadtree.new, Rect.containsB, rmin, rmax]
  · norm_num [insertF, insertLoop, divideQuads, Rect.containsB, rmin, rmax]

/-- C5: inserting a point outside the tree's bounds returns false and
leaves the tree exactly as it was (every field of every node unchanged,
since the returned tree is the input tree itself). -/
theorem C5_insert_rejects_outside :
    ∀ n (t : Quadtree) (p : Vector2), Rect.containsB t.bounds p = false →
      insertF (n + 1) t p = some (t, false) := by
  intro n t p h
  cases t with
  | mk b cap mcap ch qs =>
    rw [Quadtree.bounds] at h
    simp only [insertF]
    rw [if_pos h]

/-- Witness for C5 at a concrete input: (200,200) is outside
(0,0,100,100), so the insert returns false with the tree untouched. -/
theorem C5_witness :
    insertF 1 (Quadtree.new ⟨0, 0, 100, 100⟩ 1) ⟨200, 200⟩ =
      some (Quadtree.new ⟨0, 0, 100, 100⟩ 1, false) :=
  C5_insert_rejects_outside 0 (Quadtree.new ⟨0, 0, 100, 100⟩ 1) ⟨200, 200⟩
    (by norm_num [Quadtree.new, Quadtree.bounds, Rect.containsB, rmin, rmax])

/-- C3: `_query` returns empty when the node's bounds do not intersect the
range; otherwise it returns exactly this node's stored points that the
range contains, in insertion order, followed (when the node has subdivided)
by the four quadrants' results in their stored NW, NE, SE, SW order. (The
embedding is a pure function, so the tree is not mutated.) -/
theorem C3_query_structure :
    (∀ b cap mcap ch qs range, Rect.intersection b range = none →
        query (.mk b cap mcap ch qs) range = []) ∧
    (∀ b cap mcap ch range, Rect.intersection b range ≠ none →
        query (.mk b cap mcap ch none) range =
          ch.filter (fun c => range.containsB c)) ∧
    (∀ b cap mcap ch l range, Rect.intersection b range ≠ none →
        query (.mk b cap mcap ch (some l)) range =
          ch.filter (fun c => range.containsB c) ++ queryList l range) ∧
    (∀ q0 q1 q2 q3 range,
        queryList [q0, q1, q2, q3] range =
          query q0 range ++ query q1 range ++ query q2 range ++ query q3 range) := by
  refine ⟨?_, ?_, ?_, ?_⟩
  · intro b cap mcap ch qs range h
    rw [query, queryAux]
    simp [h]
  · intro b cap mcap ch range h
    have h2 : (Rect.intersection b range).isNone = false := by
      rcases hx : Rect.intersection b range with _ | v
      · exact absurd hx h
      · rfl
    rw [query, queryAux]
    simp [h2]
  · intro b cap mcap ch l range h
    have h2 : (Rect.intersection b range).isNone = false := by
      rcases hx : Rect.intersection b range with _ | v
      · exact absurd hx h
      · rfl
    rw [query, queryAux]
    simp [h2, queryList]
  · intro q0 q1 q2 q3 range
    simp [queryList, queryListAux, query]

/-- Witness for C3 at concrete inputs: a query range disjoint from the
bounds returns empty, and a query range overlapping the bounds returns the
stored point it contains. -/
theorem C3_witness :
    query (.mk ⟨0, 0, 100, 100⟩ 1 1 [⟨10, 10⟩] none) ⟨200, 200, 10, 10⟩ = [] ∧
    query (.mk ⟨0, 0, 100, 100⟩ 1 1 [⟨10, 10⟩] none) ⟨0, 0, 20, 20⟩ = [⟨10, 10⟩] := by
  constructor
  · exact C3_query_structure.1 ⟨0, 0, 100, 100⟩ 1 1 [⟨10, 10⟩] none ⟨200, 200, 10, 10⟩
      (by norm_num [Rect.intersection, rmin, rmax])
  · rw [C3_query_structure.2.1 ⟨0, 0, 100, 100⟩ 1 1 [⟨10, 10⟩] ⟨0, 0, 20, 20⟩
      (by
        have hx : Rect.intersection ⟨0, 0, 100, 100⟩ ⟨0, 0, 20, 20⟩ =
            some ⟨0, 0, 20, 20⟩ := by
          norm_num [Rect.intersection, rmin, rmax]
        simp [hx])]
    norm_num [Rect.containsB, rmin, rmax, List.filter]

/-- C6: subdividing a leaf creates exactly four new leaf children with
capacity `max_capacity` and bounds NW `(left, top, w, h)`,
NE `(left+w, top, w, h)`, SE `(left+w, top+h, w, h)`, SW `(left, top+h, w, h)`
for half extents `w`, `h`; on (0,0,100,100) the four child bounds are
(0,0,50,50), (50,0,50,50), (50,50,50,50), (0,50,50,50), they cover the
parent exactly, and their pairwise intersections are empty. -/
theorem C6_divide_tiling :
    (∀ b cap mcap ch, Quadtree.divide (.mk b cap mcap ch none) =
      .mk b cap mcap ch (some
        [.mk ⟨b.left, b.top, b.width / 2, b.height / 2⟩ mcap mcap [] none,
         .mk ⟨b.left + b.width / 2, b.top, b.width / 2, b.height / 2⟩ mcap mcap [] none,
         .mk ⟨b.left + b.width / 2, b.top + b.height / 2, b.width / 2, b.height / 2⟩
           mcap mcap [] none,
         .mk ⟨b.left, b.top + b.height / 2, b.width / 2, b.height / 2⟩ mcap mcap [] none])) ∧
    divideQuads ⟨0, 0, 100, 100⟩ 1 =
      [.mk ⟨0, 0, 50, 50⟩ 1 1 [] none, .mk ⟨50, 0, 50, 50⟩ 1 1 [] none,
       .mk ⟨50, 50, 50, 50⟩ 1 1 [] none, .mk ⟨0, 50, 50, 50⟩ 1 1 [] none] ∧
    (∀ p, Rect.containsB ⟨0, 0, 100, 100⟩ p = true ↔
      (Rect.containsB ⟨0, 0, 50, 50⟩ p = true ∨ Rect.containsB ⟨50, 0, 50, 50⟩ p = true ∨
       Rect.containsB ⟨50, 50, 50, 50⟩ p = true ∨ Rect.containsB ⟨0, 50, 50, 50⟩ p = true)) ∧
    Rect.overlap ⟨0, 0, 50, 50⟩ ⟨50, 0, 50, 50⟩ = none ∧
    Rect.overlap ⟨0, 0, 50, 50⟩ ⟨50, 50, 50, 50⟩ = none ∧
    Rect.overlap ⟨0, 0, 50, 50⟩ ⟨0, 50, 50, 50⟩ = none ∧
    Rect.overlap ⟨50, 0, 50, 50⟩ ⟨50, 50, 50, 50⟩ = none ∧
    Rect.overlap ⟨50, 0, 50, 50⟩ ⟨0, 50, 50, 50⟩ = none ∧
    Rect.overlap ⟨50, 50, 50, 50⟩ ⟨0, 50, 50, 50⟩ = none := by
  refine ⟨?_, ?_, ?_, ?_, ?_, ?_, ?_, ?_, ?_⟩
  · intro b cap mcap ch
    rfl
  · norm_num [divideQuads, Quadtree.mk.injEq, Rect.mk.injEq]
  · intro p
    rw [containsB_eval 0 0 100 100 p (by norm_num) (by norm_num),
      containsB_eval 0 0 50 50 p (by norm_num) (by norm_num),
      containsB_eval 50 0 50 50 p (by norm_num) (by norm_num),
      containsB_eval 50 50 50 50 p (by norm_num) (by norm_num),
      containsB_eval 0 50 50 50 p (by norm_num) (by norm_num)]
    norm_num
    constructor
    · rintro ⟨hx0, hx1, hy0, hy1⟩
      rcases le_or_lt 50 p.x with hx | hx <;> rcases le_or_lt 50 p.y with hy | hy
      · exact Or.inr (Or.inr (Or.inl ⟨hx, hx1, hy, hy1⟩))
      · exact Or.inr (Or.inl ⟨hx, hx1, hy0, hy⟩)
      · exact Or.inr (Or.inr (Or.inr ⟨hx0, hx, hy, hy1⟩))
      · exact Or.inl ⟨hx0, hx, hy0, hy⟩
    · rintro (⟨hx0, hx1, hy0, hy1⟩ | ⟨hx0, hx1, hy0, hy1⟩ |
        ⟨hx0, hx1, hy0, hy1⟩ | ⟨hx0, hx1, hy0, hy1⟩) <;>
        exact ⟨by linarith, by linarith, by linarith, by linarith⟩
  all_goals norm_num [Rect.overlap, rmin, rmax]

/-- A fresh leaf node satisfies the structural invariant. -/
lemma leaf_inv (b : Rect) (cap mcap : ℕ) : Inv (.mk b cap mcap [] none) :=
  Inv.mk b cap mcap [] none (fun _ => by simp) (by simp) (by simp)

/-- Every sub-quadtree created by `divide` satisfies the invariant. -/
lemma divideQuads_mem_inv (b : Rect) (mcap : ℕ) : ∀ q ∈ divideQuads b mcap, Inv q := by
  intro q hq
  simp only [divideQuads, List.mem_cons, List.not_mem_nil, or_false] at hq
  rcases hq with h | h | h | h <;> subst h <;> exact leaf_inv _ _ _

/-- Equation of the insert loop when the sub-quadtree call runs out of fuel. -/
lemma insertLoop_cons_none {f : Quadtree → Option (Quadtree × Bool)} {q : Quadtree}
    (hq : f q = none) (rest : List Quadtree) : insertLoop f (q :: rest) = none := by
  simp only [insertLoop, hq]

/-- Equation of the insert loop when the sub-quadtree accepts the point. -/
lemma insertLoop_cons_true {f : Quadtree → Option (Quadtree × Bool)} {q q' : Quadtree}
    (hq : f q = some (q', true)) (rest : List Quadtree) :
    insertLoop f (q :: rest) = some (q' :: rest, true) := by
  simp only [insertLoop, hq]

/-- Equation of the insert loop when the sub-quadtree rejects the point. -/
lemma insertLoop_cons_false {f : Quadtree → Option (Quadtree × Bool)} {q q' : Quadtree}
    (hq : f q = some (q', false)) (rest : List Quadtree) :
    insertLoop f (q :: rest) =
      match insertLoop f rest with
      | none => none
      | some (rest', ok) => some (q' :: rest', ok) := by
  simp only [insertLoop, hq]

/-- The insert loop preserves both the length of the sub-quadtree list and
the invariant of every element, provided the per-element call does. -/
lemma insertLoop_inv (f : Quadtree → Option (Quadtree × Bool))
    (hf : ∀ q q' ok, Inv q → f q = some (q', ok) → Inv q') :
    ∀ l l' ok, (∀ q ∈ l, Inv q) → insertLoop f l = some (l', ok) →
      l'.length = l.length ∧ ∀ q ∈ l', Inv q := by
  intro l
  induction l with
  | nil =>
    intro l' ok hall h
    simp only [insertLoop, Option.some.injEq, Prod.mk.injEq] at h
    obtain ⟨h1, h2⟩ := h
    subst h1
    simp
  | cons q rest ih =>
    intro l' ok hall h
    cases hq : f q with
    | none =>
      rw [insertLoop_cons_none hq] at h
      simp at h
    | some r =>
      obtain ⟨q', okq⟩ := r
      have hq' : Inv q' := hf q q' okq (hall q (List.mem_cons_self q rest)) hq
      cases okq with
      | true =>
        rw [insertLoop_cons_true hq] at h
        simp only [Option.some.injEq, Prod.mk.injEq] at h
        obtain ⟨h1, h2⟩ := h
        subst h1
        refine ⟨by simp, ?_⟩
        intro x hx
        rcases List.mem_cons.mp hx with hx | hx
        · subst hx; exact hq'
        · exact hall x (List.mem_cons_of_mem q hx)
      | false =>
        rw [insertLoop_cons_false hq] at h
        cases hrest : insertLoop f rest with
        | none =>
          rw [hrest] at h
          simp at h
        | some r2 =>
          obtain ⟨rest', okr⟩ := r2
          rw [hrest] at h
          simp only [Option.some.injEq, Prod.mk.injEq] at h
          obtain ⟨h1, h2⟩ := h
          subst h1
          obtain ⟨hlen, hmem⟩ :=
            ih rest' okr (fun x hx => hall x (List.mem_cons_of_mem q hx)) hrest
          refine ⟨by simp [hlen], ?_⟩
          intro x hx
          rcases List.mem_cons.mp hx with hx | hx
          · subst hx; exact hq'
          · exact hmem x hx

/-- A (terminating) `insert` call preserves the structural invariant. -/
lemma insertF_inv : ∀ n t p t' ok, Inv t → insertF n t p = some (t', ok) → Inv t' := by
  intro n
  induction n with
  | zero =>
    intro t p t' ok _ h
    simp [insertF] at h
  | succ n ih =>
    intro t p t' ok hinv h
    cases t with
    | mk b cap mcap ch qs =>
      simp only [insertF] at h
      by_cases hc : Rect.containsB b p = false
      · rw [if_pos hc] at h
        simp only [Option.some.injEq, Prod.mk.injEq] at h
        obtain ⟨h1, h2⟩ := h
        exact h1 ▸ hinv
      · rw [if_neg hc] at h
        by_cases hc2 : (decide (ch.length < cap) && qs.isNone) = true
        · rw [if_pos hc2] at h
          simp only [Option.some.injEq, Prod.mk.injEq] at h
          obtain ⟨h1, h2⟩ := h
          rw [Bool.and_eq_true, decide_eq_true_eq, Option.isNone_iff_eq_none] at hc2
          obtain ⟨hlen, hqs⟩ := hc2
          subst hqs
          refine h1 ▸ Inv.mk b cap mcap (ch ++ [p]) none (fun _ => ?_) (by simp) (by simp)
          simp only [List.length_append, List.length_singleton]
          omega
        · rw [if_neg hc2] at h
          obtain ⟨hlen4, hmem⟩ :
              (match qs with | none => divideQuads b mcap | some l0 => l0).length = 4 ∧
              ∀ q ∈ (match qs with | none => divideQuads b mcap | some l0 => l0), Inv q := by
            cases qs with
            | none => exact ⟨rfl, divideQuads_mem_inv b mcap⟩
            | some l0 =>
              rcases hinv with ⟨_, _, _, _, _, hleaf, h4, hrec⟩
              exact ⟨h4 l0 rfl, fun q hq => hrec l0 rfl q hq⟩
          cases hloop : insertLoop (fun q => insertF n q p)
              (match qs with | none => divideQuads b mcap | some l0 => l0) with
          | none =>
            rw [hloop] at h
            simp at h
          | some r =>
            obtain ⟨l', okl⟩ := r
            rw [hloop] at h
            simp only [Option.some.injEq, Prod.mk.injEq] at h
            obtain ⟨h1, h2⟩ := h
            obtain ⟨hlen', hmem'⟩ :=
              insertLoop_inv _ (fun q q' ok2 hq hf => ih q p q' ok2 hq hf) _ _ _ hmem hloop
            refine h1 ▸ Inv.mk b cap mcap ch (some l') (by simp) ?_ ?_
            · intro l2 hl2
              exact (Option.some.inj hl2) ▸ (hlen'.trans hlen4)
            · intro l2 hl2 x hx
              exact hmem' x ((Option.some.inj hl2) ▸ hx)

/-- C7: in every state reachable from `new` by inserts and clears, every
leaf node (absent `quads`) stores at most `capacity` points directly, and
every internal node (present `quads`) has exactly 4 sub-quadtrees. -/
theorem C7_reachable_invariant : ∀ t, Reachable t → Inv t := by
  intro t h
  induction h with
  | init b cap => exact leaf_inv b cap cap
  | step_insert t n p t' ok hr hins ih => exact insertF_inv n t p t' ok ih hins
  | step_clear t hr ih =>
    cases t with
    | mk b cap mcap ch qs => exact leaf_inv b cap mcap

/-- Witness for C7: the invariant holds at a concrete reachable state. -/
theorem C7_witness : Inv (Quadtree.new ⟨0, 0, 100, 100⟩ 1) :=
  C7_reachable_invariant (Quadtree.new ⟨0, 0, 100, 100⟩ 1)
    (Reachable.init ⟨0, 0, 100, 100⟩ 1)

end QT
